import Mathlib

/-!
Shallow embedding of `src/findiff/stencils.py` (class `Stencil`).

Conventions of the embedding:
* Python dicts (insertion ordered, first-key lookup) are association lists
  (`alookup` / `aset`); `aset` updates the value in place when the key is
  present and appends otherwise, exactly like a Python dict assignment.
* Python floats are modelled as `Rat` (all claims are about exact values on
  small rational inputs).
* Fallible code paths (IndexError / KeyError / AssertionError / failing
  `assert`) are modelled with `Option`, returning `none` on the error.
* numpy arrays are `Arr`: a shape, a dtype and a flat row-major data list.
  Storing into an integer-dtype array applies C-style truncation toward
  zero, as numpy does when assigning a float into an int array.
* The aliasing behaviour of `self.data = old_stl.data` in `__init__` is
  modelled with an explicit heap (`Heap`) of dict objects addressed by
  index; a stencil holds the address of its `data` dict.
-/

set_option linter.unusedVariables false

/-- The three boundary-classification symbols `'L'`, `'C'`, `'H'` used as
pattern components in `stencils.py`. -/
inductive CharSymbol : Type
  | L
  | C
  | H
deriving DecidableEq

/-- A boundary pattern: one symbol per axis (a Python tuple of chars). -/
abbrev Pattern := List CharSymbol

/-- An ndim-length integer offset tuple. -/
abbrev Offset := List Int

/-- A local offset map: Python dict from offset tuple to weight. -/
abbrev OffsetMap := List (Offset × Rat)

/-- The stencil table `self.data`: Python dict from pattern to local offset map. -/
abbrev Table := List (Pattern × OffsetMap)

/-- One scheme entry of the coefficient generator's result:
`{"offsets": [...], "coefficients": [...]}`. -/
structure Scheme where
  offsets : List Int
  coefficients : List Rat

/-- The result of `coefficients(order, acc)`: one `Scheme` per key
`"forward"`, `"center"`, `"backward"`. -/
structure CoefSet where
  forward : Scheme
  center : Scheme
  backward : Scheme

/-- The external coefficient generator `coefficients(order, acc)` (module
`findiff.coefs`, outside this core); treated as an arbitrary pure function. -/
abbrev CoefGen := Nat → Nat → CoefSet

/-- Python dict lookup `m[k]` on an association list: first entry wins. -/
def alookup {α β : Type} [DecidableEq α] : List (α × β) → α → Option β
  | [], _ => none
  | e :: rest, k => if k = e.1 then some e.2 else alookup rest k

/-- Python dict assignment `m[k] = v`: replace the value at the first entry
with key `k`, keeping its position, or append a new entry. -/
def aset {α β : Type} [DecidableEq α] : List (α × β) → α → β → List (α × β)
  | [], k, v => [(k, v)]
  | e :: rest, k, v => if k = e.1 then (e.1, v) :: rest else e :: aset rest k v

/-- A dict has pairwise distinct keys (true of every map built by `aset`). -/
def DKeys {α β : Type} (m : List (α × β)) : Prop := (m.map Prod.fst).Nodup

/-- `long_off = [0]*ndim; long_off[axis] += off` from `_create_stencil`:
the ndim-length tuple that is zero except at `axis`, where it is `off`. -/
def mkLongOff (ndim axis : Nat) (off : Int) : Offset :=
  (List.range ndim).map (fun i => if i = axis then off else 0)

/-- The inner loop of `_create_stencil`: accumulate each
`coefficient / h**order` into the local offset map at its embedded offset
tuple, adding when the key is already present. -/
def accumPairs (h : Rat) (order ndim axis : Nat) : List (Int × Rat) → OffsetMap → OffsetMap
  | [], lstl => lstl
  | p :: rest, lstl =>
    accumPairs h order ndim axis rest
      (match alookup lstl (mkLongOff ndim axis p.1) with
       | some w => aset lstl (mkLongOff ndim axis p.1) (w + p.2 / h ^ order)
       | none => aset lstl (mkLongOff ndim axis p.1) (p.2 / h ^ order))

/-- `_det_characteristic_points`: `itertools.product(*[("L","C","H")]*ndim)`,
the Cartesian product with the leftmost axis varying slowest. -/
def charPts : Nat → List Pattern
  | 0 => [[]]
  | n + 1 =>
    ([CharSymbol.L, CharSymbol.C, CharSymbol.H]).flatMap
      (fun s => (charPts n).map (fun p => s :: p))

/-- `smap = {'L': 'forward', 'C': 'center', 'H': 'backward'}` followed by the
dict lookup `coefficients(...)[scheme]`. -/
def schemeFor (cs : CoefSet) : CharSymbol → Scheme
  | CharSymbol.L => cs.forward
  | CharSymbol.C => cs.center
  | CharSymbol.H => cs.backward

/-- The loop of `_create_stencil` over the characteristic points.
`pt.get? axis` models `pt[axis]` (IndexError when out of range, for a
non-negative axis). -/
def createStencilGo (gen : CoefGen) (ndim axis order : Nat) (h : Rat) (acc : Nat) :
    List Pattern → Table → Option Table
  | [], d => some d
  | pt :: rest, d =>
    match pt.get? axis with
    | none => none
    | some sym =>
      let cs := schemeFor (gen order acc) sym
      let lstl := (alookup d pt).getD []
      createStencilGo gen ndim axis order h acc rest
        (aset d pt (accumPairs h order ndim axis (cs.offsets.zip cs.coefficients) lstl))

/-- `_create_stencil`, acting on the table value `data0` held in `self.data`
when the method starts (`{}` for a fresh construction, the seed's table when
`old_stl` was given). -/
def createStencil (gen : CoefGen) (shape : List Nat) (axis order : Nat) (h : Rat)
    (acc : Nat) (data0 : Table) : Option Table :=
  createStencilGo gen shape.length axis order h acc (charPts shape.length) data0

/-- The per-axis classification body shared by `apply` and `type_for_point`:
`'L'` if the index is 0, `'H'` if it equals `shape[axis] - 1`, else `'C'`. -/
def classifySym (i s : Nat) : CharSymbol :=
  if i = 0 then CharSymbol.L
  else if i = s - 1 then CharSymbol.H
  else CharSymbol.C

/-- `type_for_point`: loop over `range(len(idx))` reading `shape[axis]`;
`none` models the IndexError when `idx` is longer than `shape`. -/
def typeForPoint (shape idx : List Nat) : Option Pattern :=
  match shape, idx with
  | _, [] => some []
  | [], _ :: _ => none
  | s :: sh, i :: ix => (typeForPoint sh ix).map (fun rest => classifySym i s :: rest)

/-- The inline classification loop at the top of `apply`: loop over
`range(len(self.shape))` reading `idx0[axis]`; `none` models the IndexError
when `idx0` is shorter than `shape`. -/
def applyTyp (shape idx0 : List Nat) : Option Pattern :=
  match shape, idx0 with
  | [], _ => some []
  | _ :: _, [] => none
  | s :: sh, i :: ix => (applyTyp sh ix).map (fun rest => classifySym i s :: rest)

/-- numpy dtypes relevant to the claims. -/
inductive DType : Type
  | intT
  | floatT
deriving DecidableEq

/-- C-style truncation toward zero, numpy's conversion when a float value is
stored into an integer array. -/
def ratTrunc (q : Rat) : Int :=
  if 0 ≤ q then q.floor else q.ceil

/-- Conversion applied when storing a float value into an array of the
given dtype. -/
def castD : DType → Rat → Rat
  | DType.intT, q => (ratTrunc q : Rat)
  | DType.floatT, q => q

/-- A numpy ndarray: shape, dtype, and flat row-major data. -/
structure Arr where
  shape : List Nat
  dtype : DType
  data : List Rat
deriving DecidableEq

/-- Resolve one axis index: in-range non-negative indices stand, negative
indices in range wrap (numpy semantics), anything else is an IndexError. -/
def resolveIx (n : Nat) (i : Int) : Option Nat :=
  if 0 ≤ i ∧ i < (n : Int) then some i.toNat
  else if -(n : Int) ≤ i ∧ i < 0 then some (i + (n : Int)).toNat
  else none

/-- Resolve a full index tuple against a shape; `none` when the tuple length
differs from the number of axes or any axis index is out of range.
(numpy's partial-tuple slicing returns a subarray; the claims never index
with a short tuple, so that path is modelled as a failure.) -/
def resolveIdx : List Nat → List Int → Option (List Nat)
  | [], [] => some []
  | n :: sh, i :: ix =>
    match resolveIx n i, resolveIdx sh ix with
    | some a, some rest => some (a :: rest)
    | _, _ => none
  | _, _ => none

/-- Row-major flattening of a resolved index tuple against a shape. -/
def flattenIdx : List Nat → List Nat → Nat
  | _, [] => 0
  | [], _ :: _ => 0
  | _ :: sh, i :: ix => i * sh.prod + flattenIdx sh ix

/-- `u[tuple(idx)]` for an integer index tuple. -/
def arrGet (u : Arr) (idx : List Int) : Option Rat :=
  (resolveIdx u.shape idx).bind (fun r => u.data.get? (flattenIdx u.shape r))

/-- `idx = np.array(idx0) + o`: elementwise addition of the grid index and an
offset tuple (`none` on a length mismatch, where numpy would fail to
broadcast the claims' ndim-length offsets). -/
def addOff (idx0 : List Nat) (o : Offset) : Option (List Int) :=
  if idx0.length = o.length then
    some (List.zipWith (fun a b => (a : Int) + b) idx0 o)
  else none

/-- The summation loop of `apply`: `du += c * u[tuple(idx0 + o)]` over the
items of the selected local offset map, in dict order. -/
def applySum (u : Arr) (idx0 : List Nat) : List (Offset × Rat) → Rat → Option Rat
  | [], du => some du
  | oc :: rest, du =>
    match (addOff idx0 oc.1).bind (fun ix => arrGet u ix) with
    | none => none
    | some v => applySum u idx0 rest (du + oc.2 * v)

/-- `apply(u, idx0)` for a tuple index (a bare integer `i` is first wrapped
to the 1-tuple `(i,)` by the code, i.e. to `[i]` here): classify inline,
look up the local offset map (`KeyError` -> `none`), then sum. -/
def applyPt (shape : List Nat) (data : Table) (u : Arr) (idx0 : List Nat) : Option Rat :=
  match applyTyp shape idx0 with
  | none => none
  | some typ =>
    match alookup data typ with
    | none => none
    | some stl => applySum u idx0 stl 0

/-- The index enumeration of `apply_all`: `range(len(u))` for 1-d (each bare
index then wrapped by `apply`), otherwise `itertools.product` of the per-axis
ranges, leftmost axis slowest. -/
def allIndices : List Nat → List (List Nat)
  | [] => [[]]
  | n :: sh => (List.range n).flatMap (fun i => (allIndices sh).map (fun ix => i :: ix))

/-- `np.zeros_like(u)`: same shape and dtype, zero data. -/
def zerosLike (u : Arr) : Arr :=
  { shape := u.shape, dtype := u.dtype, data := List.replicate u.data.length 0 }

/-- `du[idx] = v` at an in-range index tuple: the stored value is converted
to the array's dtype. -/
def arrSet (du : Arr) (idx : List Nat) (v : Rat) : Arr :=
  { du with data := du.data.set (flattenIdx du.shape idx) (castD du.dtype v) }

/-- The write loop of `apply_all`. -/
def applyAllGo (shape : List Nat) (data : Table) (u : Arr) :
    List (List Nat) → Arr → Option Arr
  | [], du => some du
  | idx :: rest, du =>
    match applyPt shape data u idx with
    | none => none
    | some v => applyAllGo shape data u rest (arrSet du idx v)

/-- `apply_all(u)`: `assert self.shape == u.shape` (AssertionError -> `none`),
then fill a `zeros_like` output point by point. -/
def applyAll (shape : List Nat) (data : Table) (u : Arr) : Option Arr :=
  if u.shape = shape then applyAllGo shape data u (allIndices u.shape) (zerosLike u)
  else none

/-- `for_point(idx)`: `self.data[self.type_for_point(idx)]`
(KeyError -> `none`). -/
def forPoint (shape : List Nat) (data : Table) (idx : List Nat) : Option OffsetMap :=
  match typeForPoint shape idx with
  | none => none
  | some typ => alookup data typ

/-- The inner loop of `_binaryop`: fold the right operand's local offset map
into (a copy of) the left one, combining with `op` and treating a missing
left entry as 0. -/
def mergeInto (op : Rat → Rat → Rat) (single : OffsetMap) :
    List (Offset × Rat) → OffsetMap
  | [] => single
  | oc :: rest =>
    mergeInto op
      (match alookup single oc.1 with
       | some v => aset single oc.1 (op v oc.2)
       | none => aset single oc.1 (op 0 oc.2))
      rest

/-- The outer loop of `_binaryop` over the (deep-copied) left table's items;
`other.data[char_pt]` raises KeyError (`none`) when the right table lacks a
pattern of the left one. -/
def binaryopGo (op : Rat → Rat → Rat) (oData : Table) : Table → Option Table
  | [] => some []
  | e :: rest =>
    match alookup oData e.1 with
    | none => none
    | some om => (binaryopGo op oData rest).map (fun r => (e.1, mergeInto op e.2 om) :: r)

/-- `_binaryop(self, other, op)`: results are built on a deep copy of the
left operand, so the operation is pure; the shape assertion fails
(AssertionError -> `none`) on mismatched shapes before any table is merged. -/
def binaryop (sShape : List Nat) (sData : Table) (oShape : List Nat) (oData : Table)
    (op : Rat → Rat → Rat) : Option Table :=
  if sShape = oShape then binaryopGo op oData sData else none

/-- `__add__`. -/
def stencilAdd (sShape : List Nat) (sData : Table) (oShape : List Nat) (oData : Table) :
    Option Table :=
  binaryop sShape sData oShape oData (fun a b => a + b)

/-- `__sub__`. -/
def stencilSub (sShape : List Nat) (sData : Table) (oShape : List Nat) (oData : Table) :
    Option Table :=
  binaryop sShape sData oShape oData (fun a b => a - b)

/-- A heap of Python dict objects (candidates for `self.data`), addressed by
index; models object identity for the table a stencil holds. -/
abbrev Heap := List Table

/-- `_create_stencil` as a heap effect: the method reads and writes only the
dict object at the instance's `data` address (every inner-dict mutation is
committed back by `data[pt] = lstl`), so its effect is to replace that
object's value by the accumulated table. -/
def createStencilRef (gen : CoefGen) (shape : List Nat) (axis order : Nat) (h : Rat)
    (acc : Nat) (addr : Nat) (hp : Heap) : Option Heap :=
  match hp.get? addr with
  | none => none
  | some d =>
    match createStencil gen shape axis order h acc d with
    | none => none
    | some d2 => some (hp.set addr d2)

/-- `__init__`: with `old_stl`, `self.data = old_stl.data` stores the seed's
dict address unchanged (an alias, not a copy); without it, a fresh empty dict
is allocated. Then `_create_stencil` runs. Returns the new instance's `data`
address and the heap after construction. -/
def stencilInitRef (gen : CoefGen) (shape : List Nat) (axis order : Nat) (h : Rat)
    (acc : Nat) (old : Option Nat) (hp : Heap) : Option (Nat × Heap) :=
  match old with
  | some a =>
    (createStencilRef gen shape axis order h acc a hp).map (fun hp2 => (a, hp2))
  | none =>
    (createStencilRef gen shape axis order h acc hp.length (hp ++ [[]])).map
      (fun hp2 => (hp.length, hp2))

/-- Modelled from the spec: the external coefficient generator
`coefficients(order, acc)` (module `findiff.coefs`, which is not under
`src/`). Section 6 fixes its shape — forward/center/backward schemes of
positionally paired offsets and coefficients — and sections 1 and 8 require
the canonical 2nd-order-accurate first-derivative tables, which are supplied
here for `(order, acc) = (1, 2)`; other inputs are not needed by any claim
and return empty schemes. -/
def coefficientsSpec : CoefGen := fun order acc =>
  if order = 1 ∧ acc = 2 then
    { forward := ⟨[0, 1, 2], [-3/2, 2, -1/2]⟩
      center := ⟨[-1, 0, 1], [-1/2, 0, 1/2]⟩
      backward := ⟨[-2, -1, 0], [1/2, -2, 3/2]⟩ }
  else ⟨⟨[], []⟩, ⟨[], []⟩, ⟨[], []⟩⟩

/-- The table built by a fresh construction with
`shape=(3,), axis=0, order=1, h=1, acc=2` under `coefficientsSpec`. -/
def tbl3 : Table :=
  [([CharSymbol.L], [([0], -3/2), ([1], 2), ([2], -1/2)]),
   ([CharSymbol.C], [([-1], -1/2), ([0], 0), ([1], 1/2)]),
   ([CharSymbol.H], [([-2], 1/2), ([-1], -2), ([0], 3/2)])]

/-- `tbl3` after a second accumulation pass with the same parameters
(every weight doubled). -/
def tbl3x2 : Table :=
  [([CharSymbol.L], [([0], -3), ([1], 4), ([2], -1)]),
   ([CharSymbol.C], [([-1], -1), ([0], 0), ([1], 1)]),
   ([CharSymbol.H], [([-2], 1), ([-1], -4), ([0], 3)])]

/-- The `(offset, coefficient)` pairs the builder uses for a pattern: the
scheme selected by the pattern's symbol at `axis`
(LOW -> forward, CENTER -> center, HIGH -> backward). -/
def patPairs (gen : CoefGen) (order acc axis : Nat) (pt : Pattern) : List (Int × Rat) :=
  let cs := schemeFor (gen order acc) (pt.getD axis CharSymbol.L)
  cs.offsets.zip cs.coefficients

/-- The table values reachable for the `self.data` dict of any stencil:
a fresh construction starts from the empty dict `{}`, a seeded construction
starts from the (shared, possibly already accumulated) table of an existing
stencil, and every `_create_stencil` pass maps a reachable table to a
reachable table. A constructed stencil's table is any `build` result. -/
inductive StencilData : Table → Prop where
  | empty : StencilData []
  | build (gen : CoefGen) (shape : List Nat) (axis order : Nat) (h : Rat) (acc : Nat)
      (d0 tbl : Table) : StencilData d0 →
      createStencil gen shape axis order h acc d0 = some tbl → StencilData tbl

/-! ### Association-list (Python dict) lemmas -/

theorem alookup_aset_self {α β : Type} [DecidableEq α] (m : List (α × β)) (k : α) (v : β) :
    alookup (aset m k v) k = some v := by
  induction m with
  | nil => simp [aset, alookup]
  | cons e rest ih =>
    by_cases h : k = e.1
    · simp [aset, alookup, h]
    · simp [aset, alookup, h, ih]

theorem alookup_aset_ne {α β : Type} [DecidableEq α] (m : List (α × β)) (k k2 : α) (v : β)
    (h : k2 ≠ k) : alookup (aset m k v) k2 = alookup m k2 := by
  induction m with
  | nil => simp [aset, alookup, h]
  | cons e rest ih =>
    by_cases h2 : k = e.1
    · subst h2
      simp [aset, alookup, h]
    · by_cases h3 : k2 = e.1
      · simp [aset, alookup, h2, h3]
      · simp [aset, alookup, h2, h3, ih]

theorem aset_of_none {α β : Type} [DecidableEq α] (m : List (α × β)) (k : α) (v : β)
    (h : alookup m k = none) : aset m k v = m ++ [(k, v)] := by
  induction m with
  | nil => simp [aset]
  | cons e rest ih =>
    by_cases h2 : k = e.1
    · simp [alookup, h2] at h
    · simp [alookup, h2] at h
      simp [aset, h2, ih h]

theorem alookup_append {α β : Type} [DecidableEq α] (m1 m2 : List (α × β)) (k : α) :
    alookup (m1 ++ m2) k =
      match alookup m1 k with
      | some v => some v
      | none => alookup m2 k := by
  induction m1 with
  | nil => simp [alookup]
  | cons e rest ih =>
    by_cases h : k = e.1
    · simp [alookup, h]
    · simp [alookup, h, ih]

theorem alookup_isSome_iff_mem {α β : Type} [DecidableEq α] (m : List (α × β)) (k : α) :
    (alookup m k).isSome ↔ k ∈ m.map Prod.fst := by
  induction m with
  | nil => simp [alookup]
  | cons e rest ih =>
    by_cases h : k = e.1
    · simp [alookup, h]
    · simp [alookup, h, ih]

theorem alookup_none_of_not_mem {α β : Type} [DecidableEq α] (m : List (α × β)) (k : α)
    (h : k ∉ m.map Prod.fst) : alookup m k = none := by
  cases h2 : alookup m k with
  | none => rfl
  | some v =>
    exfalso
    exact h ((alookup_isSome_iff_mem m k).mp (by simp [h2]))

theorem alookup_mem {α β : Type} [DecidableEq α] (m : List (α × β)) (k : α) (v : β)
    (h : alookup m k = some v) : (k, v) ∈ m := by
  induction m with
  | nil => simp [alookup] at h
  | cons e rest ih =>
    by_cases h2 : k = e.1
    · simp [alookup, h2] at h
      have h3 : (k, v) = e := by
        cases e
        simp_all
      rw [h3]
      exact List.mem_cons_self _ _
    · simp [alookup, h2] at h
      exact List.mem_cons_of_mem _ (ih h)

theorem alookup_isSome_of_mem {α β : Type} [DecidableEq α] (m : List (α × β)) (e : α × β)
    (h : e ∈ m) : (alookup m e.1).isSome := by
  rw [alookup_isSome_iff_mem]
  exact List.mem_map_of_mem Prod.fst h

theorem aset_keys {α β : Type} [DecidableEq α] (m : List (α × β)) (k : α) (v : β) :
    (aset m k v).map Prod.fst = m.map Prod.fst ∨
      (aset m k v).map Prod.fst = m.map Prod.fst ++ [k] := by
  induction m with
  | nil => right; simp [aset]
  | cons e rest ih =>
    by_cases h : k = e.1
    · left; simp [aset, h]
    · rcases ih with h2 | h2
      · left; simp [aset, h, h2]
      · right; simp [aset, h, h2]

theorem dkeys_aset {α β : Type} [DecidableEq α] (m : List (α × β)) (k : α) (v : β)
    (h : DKeys m) (hk : alookup m k = none) : DKeys (aset m k v) := by
  rw [DKeys, aset_of_none m k v hk]
  simp only [List.map_append, List.map_cons, List.map_nil]
  rw [List.nodup_append]
  refine ⟨h, List.nodup_singleton k, ?_⟩
  intro a ha hb
  simp at hb
  subst hb
  have := alookup_none_of_not_mem (m := m) (k := a)
  rw [← alookup_isSome_iff_mem] at ha
  simp [hk] at ha

/-! ### Embedded offset tuples -/

theorem mkLongOff_get (n a : Nat) (o : Int) (j : Nat) (hj : j < n) :
    (mkLongOff n a o).get? j = some (if j = a then o else 0) := by
  rw [mkLongOff, List.get?_eq_getElem?, List.getElem?_map, List.getElem?_range hj]
  rfl

theorem mkLongOff_length (n a : Nat) (o : Int) : (mkLongOff n a o).length = n := by
  simp [mkLongOff]

theorem mkLongOff_getD (n a : Nat) (o : Int) (j : Nat) (hj : j < n) :
    (mkLongOff n a o).getD j 0 = if j = a then o else 0 := by
  have h2 := mkLongOff_get n a o j hj
  rw [List.get?_eq_getElem?] at h2
  rw [List.getD_eq_getElem?_getD, h2, Option.getD_some]

theorem mkLongOff_inj (n a : Nat) (o o2 : Int) (ha : a < n)
    (h : mkLongOff n a o = mkLongOff n a o2) : o = o2 := by
  have h2 := congrArg (fun l => l.get? a) h
  simp only [mkLongOff_get n a _ a ha, if_pos rfl] at h2
  exact Option.some.inj h2

/-! ### The weight-accumulation loop -/

theorem accumPairs_lookup (h : Rat) (order n a : Nat) (pairs : List (Int × Rat))
    (m : OffsetMap) (lo : Offset) :
    alookup (accumPairs h order n a pairs m) lo =
      if ∃ p ∈ pairs, mkLongOff n a p.1 = lo then
        some ((alookup m lo).getD 0 +
          ((pairs.filter (fun p => decide (mkLongOff n a p.1 = lo))).map
            (fun p => p.2 / h ^ order)).sum)
      else alookup m lo := by
  induction pairs generalizing m with
  | nil => simp [accumPairs]
  | cons p rest ih =>
    rw [accumPairs, ih]
    by_cases hp : mkLongOff n a p.1 = lo
    · have hlook :
          alookup
            (match alookup m (mkLongOff n a p.1) with
             | some w => aset m (mkLongOff n a p.1) (w + p.2 / h ^ order)
             | none => aset m (mkLongOff n a p.1) (p.2 / h ^ order)) lo =
            some ((alookup m lo).getD 0 + p.2 / h ^ order) := by
        rw [hp]
        cases hm : alookup m lo with
        | some w => simp [hm, alookup_aset_self]
        | none => simp [hm, alookup_aset_self]
      have hfc : (p :: rest).filter (fun q => decide (mkLongOff n a q.1 = lo)) =
          p :: rest.filter (fun q => decide (mkLongOff n a q.1 = lo)) := by
        simp [List.filter_cons, hp]
      by_cases hr : ∃ q ∈ rest, mkLongOff n a q.1 = lo
      · rw [if_pos hr, if_pos (by exact ⟨p, List.mem_cons_self _ _, hp⟩), hlook, hfc]
        simp only [Option.getD_some, List.map_cons, List.sum_cons]
        exact congrArg some (by ring)
      · rw [if_neg hr, if_pos (by exact ⟨p, List.mem_cons_self _ _, hp⟩), hlook, hfc]
        have hfe : rest.filter (fun q => decide (mkLongOff n a q.1 = lo)) = [] := by
          rw [List.filter_eq_nil_iff]
          intro q hq
          simp only [decide_eq_true_eq]
          exact fun hc => hr ⟨q, hq, hc⟩
        rw [hfe]
        simp only [List.map_cons, List.map_nil, List.sum_cons, List.sum_nil]
        exact congrArg some (by ring)
    · have hlook :
          alookup
            (match alookup m (mkLongOff n a p.1) with
             | some w => aset m (mkLongOff n a p.1) (w + p.2 / h ^ order)
             | none => aset m (mkLongOff n a p.1) (p.2 / h ^ order)) lo =
            alookup m lo := by
        cases hm : alookup m (mkLongOff n a p.1) with
        | some w => simp [alookup_aset_ne _ _ _ _ (fun hc => hp hc.symm)]
        | none => simp [alookup_aset_ne _ _ _ _ (fun hc => hp hc.symm)]
      have hfc : (p :: rest).filter (fun q => decide (mkLongOff n a q.1 = lo)) =
          rest.filter (fun q => decide (mkLongOff n a q.1 = lo)) := by
        simp [List.filter_cons, hp]
      have hex : (∃ q ∈ p :: rest, mkLongOff n a q.1 = lo) ↔
          (∃ q ∈ rest, mkLongOff n a q.1 = lo) := by
        constructor
        · rintro ⟨q, hq, hqe⟩
          rcases List.mem_cons.mp hq with rfl | hq2
          · exact absurd hqe hp
          · exact ⟨q, hq2, hqe⟩
        · rintro ⟨q, hq, hqe⟩
          exact ⟨q, List.mem_cons_of_mem _ hq, hqe⟩
      rw [hlook, hfc]
      by_cases hr : ∃ q ∈ rest, mkLongOff n a q.1 = lo
      · rw [if_pos hr, if_pos (hex.mpr hr)]
      · rw [if_neg hr, if_neg (fun hc => hr (hex.mp hc))]

theorem aset_keys_of_some {α β : Type} [DecidableEq α] (m : List (α × β)) (k : α)
    (v w : β) (h : alookup m k = some w) :
    (aset m k v).map Prod.fst = m.map Prod.fst := by
  induction m with
  | nil => simp [alookup] at h
  | cons e rest ih =>
    by_cases h2 : k = e.1
    · simp [aset, h2]
    · simp only [alookup, if_neg h2] at h
      simp [aset, h2, ih h]

theorem dkeys_accumPairs (h : Rat) (order n a : Nat) (pairs : List (Int × Rat))
    (m : OffsetMap) (hm : DKeys m) : DKeys (accumPairs h order n a pairs m) := by
  induction pairs generalizing m with
  | nil => exact hm
  | cons p rest ih =>
    rw [accumPairs]
    apply ih
    cases hl : alookup m (mkLongOff n a p.1) with
    | some w =>
      simp only
      rw [DKeys, aset_keys_of_some m _ _ w hl]
      exact hm
    | none =>
      simp only
      exact dkeys_aset m _ _ hm hl

/-! ### Characteristic points -/

theorem mem_charPts (pt : Pattern) (n : Nat) : pt ∈ charPts n ↔ pt.length = n := by
  induction n generalizing pt with
  | zero =>
    simp only [charPts, List.mem_singleton]
    constructor
    · rintro rfl; rfl
    · intro h; exact List.length_eq_zero.mp h
  | succ n ih =>
    simp only [charPts, List.mem_flatMap, List.mem_map]
    constructor
    · rintro ⟨s, hs, p, hp, rfl⟩
      simp [ (ih p).mp hp ]
    · intro h
      cases pt with
      | nil => simp at h
      | cons x rest =>
        refine ⟨x, ?_, rest, (ih rest).mpr (by simpa using h), rfl⟩
        cases x <;> simp

theorem nodup_charPts (n : Nat) : (charPts n).Nodup := by
  induction n with
  | zero => simp [charPts]
  | succ n ih =>
    rw [charPts]
    simp only [List.flatMap_cons, List.flatMap_nil, List.append_nil]
    have hinj : ∀ s : CharSymbol, Function.Injective (fun p : Pattern => s :: p) := by
      intro s p q hpq
      simpa using hpq
    have hm : ∀ s : CharSymbol, ((charPts n).map (fun p => s :: p)).Nodup :=
      fun s => ih.map (hinj s)
    have hdisj : ∀ s t : CharSymbol, s ≠ t →
        List.Disjoint ((charPts n).map (fun p => s :: p))
          ((charPts n).map (fun p => t :: p)) := by
      intro s t hst x hxs hxt
      simp only [List.mem_map] at hxs hxt
      obtain ⟨p, hp, rfl⟩ := hxs
      obtain ⟨q, hq, heq⟩ := hxt
      exact hst (by injection heq with h1 h2; exact h1.symm)
    rw [List.nodup_append]
    refine ⟨hm _, ?_, ?_⟩
    · rw [List.nodup_append]
      exact ⟨hm _, hm _, hdisj CharSymbol.C CharSymbol.H (by simp)⟩
    · intro x hx hx2
      rcases List.mem_append.mp hx2 with h2 | h2
      · exact hdisj CharSymbol.L CharSymbol.C (by simp) hx h2
      · exact hdisj CharSymbol.L CharSymbol.H (by simp) hx h2

theorem length_charPts (n : Nat) : (charPts n).length = 3 ^ n := by
  induction n with
  | zero => simp [charPts]
  | succ n ih =>
    rw [charPts]
    simp only [List.flatMap_cons, List.flatMap_nil, List.append_nil, List.length_append,
      List.length_map, ih]
    rw [pow_succ]
    ring

/-! ### The table-construction loop -/

theorem createStencilGo_spec (gen : CoefGen) (ndim axis order : Nat) (h : Rat) (acc : Nat)
    (l : List Pattern) (d : Table)
    (hax : ∀ pt ∈ l, axis < pt.length)
    (hnew : ∀ pt ∈ l, alookup d pt = none)
    (hnd : l.Nodup) :
    createStencilGo gen ndim axis order h acc l d =
      some (d ++ l.map (fun pt =>
        (pt, accumPairs h order ndim axis (patPairs gen order acc axis pt) []))) := by
  induction l generalizing d with
  | nil => simp [createStencilGo]
  | cons pt rest ih =>
    have haxpt : axis < pt.length := hax pt (List.mem_cons_self _ _)
    have hget : pt.get? axis = some (pt.getD axis CharSymbol.L) := by
      rw [List.get?_eq_getElem?, List.getD_eq_getElem?_getD]
      cases h2 : pt[axis]? with
      | none => rw [List.getElem?_eq_none_iff] at h2; omega
      | some s => rfl
    have hd0 : alookup d pt = none := hnew pt (List.mem_cons_self _ _)
    rw [createStencilGo, hget]
    simp only [hd0, Option.getD_none]
    rw [aset_of_none d pt _ hd0]
    rw [ih (d ++ [(pt, accumPairs h order ndim axis
        ((schemeFor (gen order acc) (pt.getD axis CharSymbol.L)).offsets.zip
          (schemeFor (gen order acc) (pt.getD axis CharSymbol.L)).coefficients) [])])
      (fun q hq => hax q (List.mem_cons_of_mem _ hq))
      ?_ (List.Nodup.of_cons hnd)]
    · rw [List.append_assoc]
      rfl
    · intro q hq
      rw [alookup_append, hnew q (List.mem_cons_of_mem _ hq)]
      have hqpt : q ≠ pt := by
        intro hc
        subst hc
        exact (List.nodup_cons.mp hnd).1 hq
      simp [alookup, hqpt]

theorem alookup_map_self {α β : Type} [DecidableEq α] (l : List α) (f : α → β) (k : α)
    (hk : k ∈ l) : alookup (l.map (fun x => (x, f x))) k = some (f k) := by
  induction l with
  | nil => simp at hk
  | cons x rest ih =>
    by_cases h : k = x
    · subst h
      simp [alookup]
    · rcases List.mem_cons.mp hk with rfl | h2
      · exact absurd rfl h
      · simp [alookup, h, ih h2]

/-- C2: a fresh construction (no `old_stl`) with valid parameters builds a
table whose keys are exactly the `3^ndim` patterns (the Cartesian product of
{LOW, CENTER, HIGH} over all axes), and whose local offset map at each
pattern has exactly the generator's offsets for the scheme selected by the
pattern's symbol at `axis`, each embedded in an ndim-length tuple that is
zero except at `axis`, with weight `coefficient / h^order`; contributions to
the same offset tuple are summed. -/
theorem createStencil_table_spec (gen : CoefGen) (shape : List Nat) (axis order acc : Nat)
    (h : Rat) (hsh : ∀ n ∈ shape, 0 < n) (hax : axis < shape.length) (hord : 0 < order)
    (hh : 0 < h) (hacc : 0 < acc) (heven : acc % 2 = 0) :
    ∃ tbl, createStencil gen shape axis order h acc [] = some tbl ∧
      tbl.map Prod.fst = charPts shape.length ∧
      (charPts shape.length).length = 3 ^ shape.length ∧
      (∀ pt : Pattern, pt ∈ charPts shape.length ↔ pt.length = shape.length) ∧
      (∀ off : Int, (mkLongOff shape.length axis off).length = shape.length ∧
        (mkLongOff shape.length axis off).getD axis 0 = off ∧
        ∀ j, j < shape.length → j ≠ axis → (mkLongOff shape.length axis off).getD j 0 = 0) ∧
      ∀ pt ∈ charPts shape.length,
        ∃ m, alookup tbl pt = some m ∧
          (∀ lo : Offset, (alookup m lo).isSome ↔
            lo ∈ (patPairs gen order acc axis pt).map (fun p => mkLongOff shape.length axis p.1)) ∧
          (∀ off : Int, off ∈ (patPairs gen order acc axis pt).map Prod.fst →
            alookup m (mkLongOff shape.length axis off) =
              some ((((patPairs gen order acc axis pt).filter
                  (fun p => decide (p.1 = off))).map (fun p => p.2 / h ^ order)).sum)) := by
  have hspec := createStencilGo_spec gen shape.length axis order h acc
    (charPts shape.length) []
    (fun pt hpt => by
      have := (mem_charPts pt shape.length).mp hpt
      omega)
    (fun pt hpt => rfl)
    (nodup_charPts shape.length)
  refine ⟨(charPts shape.length).map (fun pt =>
    (pt, accumPairs h order shape.length axis (patPairs gen order acc axis pt) [])),
    ?_, ?_, length_charPts shape.length, fun pt => mem_charPts pt shape.length, ?_, ?_⟩
  · rw [createStencil, hspec]
    simp
  · simp [Function.comp_def]
  · intro off
    refine ⟨mkLongOff_length _ _ _, ?_, ?_⟩
    · rw [mkLongOff_getD _ _ _ _ hax, if_pos rfl]
    · intro j hj hja
      rw [mkLongOff_getD _ _ _ _ hj, if_neg hja]
  · intro pt hpt
    refine ⟨accumPairs h order shape.length axis (patPairs gen order acc axis pt) [],
      alookup_map_self _ _ _ hpt, ?_, ?_⟩
    · intro lo
      rw [accumPairs_lookup]
      by_cases hc : ∃ p ∈ patPairs gen order acc axis pt, mkLongOff shape.length axis p.1 = lo
      · rw [if_pos hc]
        simp only [Option.isSome_some, true_iff]
        rw [List.mem_map]
        exact hc
      · rw [if_neg hc]
        simp only [alookup, Option.isSome_none, Bool.false_eq_true, false_iff]
        rw [List.mem_map]
        exact hc
    · intro off hoff
      rw [List.mem_map] at hoff
      obtain ⟨p0, hp0, hp0e⟩ := hoff
      rw [accumPairs_lookup]
      rw [if_pos ⟨p0, hp0, by rw [hp0e]⟩]
      have hfil : (patPairs gen order acc axis pt).filter
          (fun p => decide (mkLongOff shape.length axis p.1 = mkLongOff shape.length axis off)) =
          (patPairs gen order acc axis pt).filter (fun p => decide (p.1 = off)) := by
        apply List.filter_congr
        intro q hq
        apply decide_eq_decide.mpr
        exact ⟨fun he => mkLongOff_inj _ _ _ _ hax he, fun he => by rw [he]⟩
      rw [hfil]
      simp [alookup]

/-- Witness for C2 at `shape=(5,), axis=0, order=1, h=1, acc=2` under the
spec-modelled generator. -/
theorem createStencil_table_spec_witness :
    ∃ tbl, createStencil coefficientsSpec [5] 0 1 1 2 [] = some tbl ∧
      tbl.map Prod.fst = charPts ([5] : List Nat).length ∧
      (charPts ([5] : List Nat).length).length = 3 ^ ([5] : List Nat).length ∧
      (∀ pt : Pattern, pt ∈ charPts ([5] : List Nat).length ↔
        pt.length = ([5] : List Nat).length) ∧
      (∀ off : Int, (mkLongOff ([5] : List Nat).length 0 off).length = ([5] : List Nat).length ∧
        (mkLongOff ([5] : List Nat).length 0 off).getD 0 0 = off ∧
        ∀ j, j < ([5] : List Nat).length → j ≠ 0 →
          (mkLongOff ([5] : List Nat).length 0 off).getD j 0 = 0) ∧
      ∀ pt ∈ charPts ([5] : List Nat).length,
        ∃ m, alookup tbl pt = some m ∧
          (∀ lo : Offset, (alookup m lo).isSome ↔
            lo ∈ (patPairs coefficientsSpec 1 2 0 pt).map
              (fun p => mkLongOff ([5] : List Nat).length 0 p.1)) ∧
          (∀ off : Int, off ∈ (patPairs coefficientsSpec 1 2 0 pt).map Prod.fst →
            alookup m (mkLongOff ([5] : List Nat).length 0 off) =
              some ((((patPairs coefficientsSpec 1 2 0 pt).filter
                  (fun p => decide (p.1 = off))).map (fun p => p.2 / (1 : Rat) ^ 1)).sum)) :=
  createStencil_table_spec coefficientsSpec [5] 0 1 2 1
    (by decide) (by decide) (by decide) (by decide) (by decide) (by decide)

/-! ### Boundary classification -/

theorem typeForPoint_zip (shape idx : List Nat) (hlen : idx.length ≤ shape.length) :
    typeForPoint shape idx = some (List.zipWith (fun i s => classifySym i s) idx shape) := by
  induction idx generalizing shape with
  | nil => cases shape <;> simp [typeForPoint]
  | cons i ix ih =>
    cases shape with
    | nil => simp at hlen
    | cons s sh =>
      simp only [List.length_cons, Nat.add_le_add_iff_right] at hlen
      rw [typeForPoint, ih sh hlen]
      simp [List.zipWith]

theorem getD_zipWith_cls (idx shape : List Nat) (a : Nat)
    (ha : a < idx.length) (hlen : idx.length = shape.length) :
    (List.zipWith (fun i s => classifySym i s) idx shape).getD a CharSymbol.C =
      classifySym (idx.getD a 0) (shape.getD a 0) := by
  induction idx generalizing shape a with
  | nil => simp at ha
  | cons i ix ih =>
    cases shape with
    | nil => simp at hlen
    | cons s sh =>
      cases a with
      | zero => simp [List.zipWith]
      | succ a2 =>
        simp only [List.length_cons] at ha hlen
        simp only [List.zipWith, List.getD_cons_succ]
        exact ih sh a2 (by omega) (by omega)

/-- C3: `type_for_point` classifies each axis of an in-range ndim-length
index independently: LOW at index 0, HIGH at the last index when it is not
also 0, CENTER otherwise; on a single-point axis the only index 0 is LOW
(LOW is checked first); the result is a pure function of `(shape, idx)`. -/
theorem type_for_point_spec (shape idx : List Nat) (a : Nat)
    (hlen : idx.length = shape.length) (ha : a < idx.length)
    (hin : ∀ j, j < idx.length → idx.getD j 0 < shape.getD j 0) :
    ∃ pat, typeForPoint shape idx = some pat ∧ pat.length = idx.length ∧
      (idx.getD a 0 = 0 → pat.getD a CharSymbol.C = CharSymbol.L) ∧
      (idx.getD a 0 ≠ 0 → idx.getD a 0 = shape.getD a 0 - 1 →
        pat.getD a CharSymbol.C = CharSymbol.H) ∧
      (idx.getD a 0 ≠ 0 → idx.getD a 0 ≠ shape.getD a 0 - 1 →
        pat.getD a CharSymbol.C = CharSymbol.C) ∧
      (shape.getD a 0 = 1 → idx.getD a 0 = 0 ∧ pat.getD a CharSymbol.C = CharSymbol.L) := by
  refine ⟨List.zipWith (fun i s => classifySym i s) idx shape,
    typeForPoint_zip shape idx (le_of_eq hlen), ?_, ?_, ?_, ?_, ?_⟩
  · rw [List.length_zipWith, hlen]
    simp
  · intro h0
    rw [getD_zipWith_cls idx shape a ha hlen, h0]
    simp [classifySym]
  · intro h0 hlast
    rw [getD_zipWith_cls idx shape a ha hlen, classifySym, if_neg h0, if_pos hlast]
  · intro h0 hlast
    rw [getD_zipWith_cls idx shape a ha hlen, classifySym, if_neg h0, if_neg hlast]
  · intro h1
    have h0 : idx.getD a 0 = 0 := by
      have := hin a ha
      omega
    refine ⟨h0, ?_⟩
    rw [getD_zipWith_cls idx shape a ha hlen, h0]
    simp [classifySym]

/-- Witness for C3 at `shape=(1,5)`, `idx=(0,4)`, axis 0 (a single-point
axis, exercising the LOW-over-HIGH precedence). -/
theorem type_for_point_spec_witness :
    ∃ pat, typeForPoint [1, 5] [0, 4] = some pat ∧ pat.length = ([0, 4] : List Nat).length ∧
      (([0, 4] : List Nat).getD 0 0 = 0 → pat.getD 0 CharSymbol.C = CharSymbol.L) ∧
      (([0, 4] : List Nat).getD 0 0 ≠ 0 →
        ([0, 4] : List Nat).getD 0 0 = ([1, 5] : List Nat).getD 0 0 - 1 →
        pat.getD 0 CharSymbol.C = CharSymbol.H) ∧
      (([0, 4] : List Nat).getD 0 0 ≠ 0 →
        ([0, 4] : List Nat).getD 0 0 ≠ ([1, 5] : List Nat).getD 0 0 - 1 →
        pat.getD 0 CharSymbol.C = CharSymbol.C) ∧
      (([1, 5] : List Nat).getD 0 0 = 1 →
        ([0, 4] : List Nat).getD 0 0 = 0 ∧ pat.getD 0 CharSymbol.C = CharSymbol.L) :=
  type_for_point_spec [1, 5] [0, 4] 0 (by decide) (by decide) (by decide)

/-! ### Equivalence of the two classification code paths -/

theorem applyTyp_eq_typeForPoint (shape idx : List Nat) (hlen : idx.length = shape.length) :
    applyTyp shape idx = typeForPoint shape idx := by
  induction idx generalizing shape with
  | nil =>
    cases shape with
    | nil => rfl
    | cons s sh => simp at hlen
  | cons i ix ih =>
    cases shape with
    | nil => simp at hlen
    | cons s sh =>
      simp only [List.length_cons] at hlen
      rw [applyTyp, typeForPoint, ih sh (by omega)]

/-- C10: on an ndim-length index tuple the inline classification in `apply`
agrees with `type_for_point`, `for_point` is that classification followed by
the table lookup, and `apply` computes its weighted sum from exactly the
local offset map `for_point` returns. -/
theorem classify_paths_equiv (shape : List Nat) (data : Table) (idx : List Nat)
    (hlen : idx.length = shape.length) :
    applyTyp shape idx = typeForPoint shape idx ∧
    forPoint shape data idx =
      (applyTyp shape idx).bind (fun t => alookup data t) ∧
    ∀ u : Arr, applyPt shape data u idx =
      (forPoint shape data idx).bind (fun stl => applySum u idx stl 0) := by
  have heq := applyTyp_eq_typeForPoint shape idx hlen
  refine ⟨heq, ?_, ?_⟩
  · rw [forPoint, heq]
    cases typeForPoint shape idx <;> simp
  · intro u
    rw [applyPt, forPoint, heq]
    cases typeForPoint shape idx with
    | none => simp
    | some typ =>
      cases h2 : alookup data typ <;> simp [h2]

/-- Witness for C10 at `shape=(3,), idx=(1,)` over the concrete table of a
fresh order-1 accuracy-2 construction. -/
theorem classify_paths_equiv_witness :
    applyTyp [3] [1] = typeForPoint [3] [1] ∧
    forPoint [3] tbl3 [1] = (applyTyp [3] [1]).bind (fun t => alookup tbl3 t) ∧
    ∀ u : Arr, applyPt [3] tbl3 u [1] =
      (forPoint [3] tbl3 [1]).bind (fun stl => applySum u [1] stl 0) :=
  classify_paths_equiv [3] tbl3 [1] (by decide)

/-! ### The point applicator -/

theorem applySum_spec (u : Arr) (idx0 : List Nat) (stl : List (Offset × Rat))
    (hoff : ∀ oc ∈ stl, ((addOff idx0 oc.1).bind (fun ix => arrGet u ix)).isSome) :
    ∀ du, applySum u idx0 stl du =
      some (du + (stl.map
        (fun oc => oc.2 * ((addOff idx0 oc.1).bind (fun ix => arrGet u ix)).getD 0)).sum) := by
  induction stl with
  | nil => intro du; simp [applySum]
  | cons oc rest ih =>
    intro du
    have hhd := hoff oc (List.mem_cons_self _ _)
    cases hv : (addOff idx0 oc.1).bind (fun ix => arrGet u ix) with
    | none => rw [hv] at hhd; simp at hhd
    | some v =>
      have hstep : applySum u idx0 (oc :: rest) du = applySum u idx0 rest (du + oc.2 * v) := by
        rw [applySum, hv]
      rw [hstep, ih (fun q hq => hoff q (List.mem_cons_of_mem _ hq)) (du + oc.2 * v)]
      simp only [List.map_cons, List.sum_cons, hv, Option.getD_some]
      exact congrArg some (by ring)

/-- C4: for an array of the grid's shape and an in-range ndim-length index
whose required offsets are all in bounds, `apply` returns the sum over the
`(offset, weight)` pairs of the pattern's local offset map of
`weight * u[idx0 + offset]` (a pure function of the table, the index and the
array; `u` is never written). -/
theorem apply_point_spec (shape : List Nat) (data : Table) (u : Arr) (idx0 : List Nat)
    (pat : Pattern) (m : OffsetMap)
    (hu : u.shape = shape) (hlen : idx0.length = shape.length)
    (hin : ∀ j, j < idx0.length → idx0.getD j 0 < shape.getD j 0)
    (hpat : applyTyp shape idx0 = some pat)
    (hm : alookup data pat = some m)
    (hoff : ∀ oc ∈ m, ((addOff idx0 oc.1).bind (fun ix => arrGet u ix)).isSome) :
    applyPt shape data u idx0 =
      some ((m.map
        (fun oc => oc.2 * ((addOff idx0 oc.1).bind (fun ix => arrGet u ix)).getD 0)).sum) := by
  have h1 : applyPt shape data u idx0 = applySum u idx0 m 0 := by
    simp only [applyPt, hpat, hm]
  rw [h1, applySum_spec u idx0 m hoff 0, zero_add]

/-- Witness for C4: the interior point of a 3-point grid with the concrete
order-1 accuracy-2 table, applied to `u = [2, 5, 10]`. -/
theorem apply_point_spec_witness :
    applyPt [3] tbl3 ⟨[3], DType.floatT, [2, 5, 10]⟩ [1] =
      some ((([([-1], -1/2), ([0], 0), ([1], 1/2)] : OffsetMap).map
        (fun oc => oc.2 *
          ((addOff [1] oc.1).bind
            (fun ix => arrGet ⟨[3], DType.floatT, [2, 5, 10]⟩ ix)).getD 0)).sum) :=
  apply_point_spec [3] tbl3 ⟨[3], DType.floatT, [2, 5, 10]⟩ [1]
    [CharSymbol.C] [([-1], -1/2), ([0], 0), ([1], 1/2)]
    (by decide) (by decide) (by decide) (by decide)
    (by with_unfolding_all rfl) (by with_unfolding_all decide)

/-! ### Algebraic combination -/

theorem mergeInto_lookup (op : Rat → Rat → Rat) (other : List (Offset × Rat))
    (hnd : DKeys other) :
    ∀ (single : OffsetMap) (lo : Offset),
      alookup (mergeInto op single other) lo =
        match alookup single lo, alookup other lo with
        | some a, some b => some (op a b)
        | some a, none => some a
        | none, some b => some (op 0 b)
        | none, none => none := by
  induction other with
  | nil =>
    intro single lo
    cases hs : alookup single lo <;> simp [mergeInto, alookup, hs]
  | cons oc rest ih =>
    intro single lo
    have hnd2 : DKeys rest := by
      rw [DKeys] at hnd ⊢
      simp only [List.map_cons, List.nodup_cons] at hnd
      exact hnd.2
    have hnotin : oc.1 ∉ rest.map Prod.fst := by
      rw [DKeys] at hnd
      simp only [List.map_cons, List.nodup_cons] at hnd
      exact hnd.1
    have hrest0 : alookup rest oc.1 = none := alookup_none_of_not_mem rest oc.1 hnotin
    have hhead : alookup (oc :: rest) oc.1 = some oc.2 := by simp [alookup]
    cases hs2 : alookup single oc.1 with
    | some b =>
      have hred : mergeInto op single (oc :: rest) =
          mergeInto op (aset single oc.1 (op b oc.2)) rest := by
        rw [mergeInto, hs2]
      rw [hred, ih hnd2]
      by_cases hlo : lo = oc.1
      · subst hlo
        rw [alookup_aset_self single oc.1 (op b oc.2), hrest0, hs2, hhead]
      · rw [alookup_aset_ne single oc.1 lo _ hlo]
        have hco : alookup (oc :: rest) lo = alookup rest lo := by
          simp [alookup, hlo]
        rw [hco]
    | none =>
      have hred : mergeInto op single (oc :: rest) =
          mergeInto op (aset single oc.1 (op 0 oc.2)) rest := by
        rw [mergeInto, hs2]
      rw [hred, ih hnd2]
      by_cases hlo : lo = oc.1
      · subst hlo
        rw [alookup_aset_self single oc.1 (op 0 oc.2), hrest0, hs2, hhead]
      · rw [alookup_aset_ne single oc.1 lo _ hlo]
        have hco : alookup (oc :: rest) lo = alookup rest lo := by
          simp [alookup, hlo]
        rw [hco]

theorem binaryopGo_spec (op : Rat → Rat → Rat) (oData : Table) (sData : Table)
    (hcov : ∀ e ∈ sData, (alookup oData e.1).isSome) :
    binaryopGo op oData sData =
      some (sData.map (fun e => (e.1, mergeInto op e.2 ((alookup oData e.1).getD [])))) := by
  induction sData with
  | nil => simp [binaryopGo]
  | cons e rest ih =>
    have hhd := hcov e (List.mem_cons_self _ _)
    cases ho : alookup oData e.1 with
    | none => rw [ho] at hhd; simp at hhd
    | some om =>
      rw [binaryopGo, ho, ih (fun q hq => hcov q (List.mem_cons_of_mem _ hq))]
      simp [ho]

theorem alookup_map_value {α β γ : Type} [DecidableEq α] (l : List (α × β))
    (f : α → β → γ) (k : α) :
    alookup (l.map (fun e => (e.1, f e.1 e.2))) k = (alookup l k).map (fun v => f k v) := by
  induction l with
  | nil => simp [alookup]
  | cons e rest ih =>
    by_cases h : k = e.1
    · subst h
      simp [alookup]
    · simp [alookup, h, ih]

theorem binaryop_char (sh : List Nat) (sData oData : Table) (op : Rat → Rat → Rat)
    (hop : ∀ a : Rat, op a 0 = a)
    (hcov : ∀ e ∈ sData, (alookup oData e.1).isSome)
    (hnd : ∀ pt om, alookup oData pt = some om → DKeys om) :
    ∃ r, binaryop sh sData sh oData op = some r ∧
      r.map Prod.fst = sData.map Prod.fst ∧
      ∀ pt m om, alookup sData pt = some m → alookup oData pt = some om →
        ∃ mr, alookup r pt = some mr ∧
          ∀ lo : Offset, alookup mr lo =
            if (alookup m lo).isSome ∨ (alookup om lo).isSome then
              some (op ((alookup m lo).getD 0) ((alookup om lo).getD 0))
            else none := by
  refine ⟨sData.map (fun e => (e.1, mergeInto op e.2 ((alookup oData e.1).getD []))), ?_, ?_, ?_⟩
  · rw [binaryop, if_pos rfl]
    exact binaryopGo_spec op oData sData hcov
  · simp
  · intro pt m om hs ho
    refine ⟨mergeInto op m om, ?_, ?_⟩
    · rw [alookup_map_value sData (fun k v => mergeInto op v ((alookup oData k).getD [])) pt,
        hs, ho]
      rfl
    · intro lo
      rw [mergeInto_lookup op om (hnd pt om ho) m lo]
      cases hm : alookup m lo with
      | some a =>
        cases hom : alookup om lo with
        | some b => simp
        | none => simp [hop]
      | none =>
        cases hom : alookup om lo with
        | some b => simp
        | none => simp

/-- C5: for two stencils of identical shape, `+` and `-` build a new table
that is, at every pattern, the offset-wise sum (resp. difference) of the two
local offset maps, treating an offset missing from one side as weight zero,
so the offset set at each pattern is the union of both operands' offset sets
(the operation is pure: both operand tables are left untouched). -/
theorem combine_add_sub_spec (sh : List Nat) (sData oData : Table)
    (hcov : ∀ e ∈ sData, (alookup oData e.1).isSome)
    (hnd : ∀ pt om, alookup oData pt = some om → DKeys om) :
    (∃ r, stencilAdd sh sData sh oData = some r ∧
      r.map Prod.fst = sData.map Prod.fst ∧
      ∀ pt m om, alookup sData pt = some m → alookup oData pt = some om →
        ∃ mr, alookup r pt = some mr ∧
          ∀ lo : Offset, alookup mr lo =
            if (alookup m lo).isSome ∨ (alookup om lo).isSome then
              some ((alookup m lo).getD 0 + (alookup om lo).getD 0)
            else none) ∧
    (∃ r, stencilSub sh sData sh oData = some r ∧
      r.map Prod.fst = sData.map Prod.fst ∧
      ∀ pt m om, alookup sData pt = some m → alookup oData pt = some om →
        ∃ mr, alookup r pt = some mr ∧
          ∀ lo : Offset, alookup mr lo =
            if (alookup m lo).isSome ∨ (alookup om lo).isSome then
              some ((alookup m lo).getD 0 - (alookup om lo).getD 0)
            else none) := by
  constructor
  · exact binaryop_char sh sData oData (fun a b => a + b) (fun a => add_zero a) hcov hnd
  · exact binaryop_char sh sData oData (fun a b => a - b) (fun a => sub_zero a) hcov hnd

/-- Witness for C5 on two small one-pattern tables with partially
overlapping offsets. -/
theorem combine_add_sub_spec_witness :
    (∃ r, stencilAdd [2] [([CharSymbol.L], [([0], 1), ([1], 2)])] [2]
        [([CharSymbol.L], [([1], 5), ([2], 7)])] = some r ∧
      r.map Prod.fst = ([([CharSymbol.L], [([0], 1), ([1], 2)])] : Table).map Prod.fst ∧
      ∀ pt m om, alookup [([CharSymbol.L], [([0], 1), ([1], 2)])] pt = some m →
        alookup [([CharSymbol.L], [([1], 5), ([2], 7)])] pt = some om →
        ∃ mr, alookup r pt = some mr ∧
          ∀ lo : Offset, alookup mr lo =
            if (alookup m lo).isSome ∨ (alookup om lo).isSome then
              some ((alookup m lo).getD 0 + (alookup om lo).getD 0)
            else none) ∧
    (∃ r, stencilSub [2] [([CharSymbol.L], [([0], 1), ([1], 2)])] [2]
        [([CharSymbol.L], [([1], 5), ([2], 7)])] = some r ∧
      r.map Prod.fst = ([([CharSymbol.L], [([0], 1), ([1], 2)])] : Table).map Prod.fst ∧
      ∀ pt m om, alookup [([CharSymbol.L], [([0], 1), ([1], 2)])] pt = some m →
        alookup [([CharSymbol.L], [([1], 5), ([2], 7)])] pt = some om →
        ∃ mr, alookup r pt = some mr ∧
          ∀ lo : Offset, alookup mr lo =
            if (alookup m lo).isSome ∨ (alookup om lo).isSome then
              some ((alookup m lo).getD 0 - (alookup om lo).getD 0)
            else none) :=
  combine_add_sub_spec [2] [([CharSymbol.L], [([0], 1), ([1], 2)])]
    [([CharSymbol.L], [([1], 5), ([2], 7)])]
    (by decide)
    (by
      intro pt om hpo
      by_cases hp : pt = [CharSymbol.L]
      · subst hp
        simp [alookup] at hpo
        rw [← hpo, DKeys]
        decide
      · simp [alookup, hp] at hpo)

theorem createStencilGo_inner_dkeys (gen : CoefGen) (ndim axis order : Nat) (h : Rat)
    (acc : Nat) :
    ∀ (l : List Pattern) (d0 tbl : Table),
      (∀ pt om, alookup d0 pt = some om → DKeys om) →
      createStencilGo gen ndim axis order h acc l d0 = some tbl →
      ∀ pt om, alookup tbl pt = some om → DKeys om := by
  intro l
  induction l with
  | nil =>
    intro d0 tbl hd0 hc
    rw [createStencilGo] at hc
    injection hc with h2
    subst h2
    exact hd0
  | cons pt0 rest ih =>
    intro d0 tbl hd0 hc
    rw [createStencilGo] at hc
    cases hg : pt0.get? axis with
    | none =>
      rw [hg] at hc
      exact Option.noConfusion hc
    | some sym =>
      rw [hg] at hc
      refine ih (aset d0 pt0 (accumPairs h order ndim axis
          ((schemeFor (gen order acc) sym).offsets.zip
            (schemeFor (gen order acc) sym).coefficients)
          ((alookup d0 pt0).getD []))) tbl ?_ hc
      intro q om2 hq
      by_cases hqp : q = pt0
      · subst hqp
        rw [alookup_aset_self] at hq
        injection hq with h2
        rw [← h2]
        apply dkeys_accumPairs
        cases hl : alookup d0 q with
        | none => simp [DKeys]
        | some m0 =>
          simp only [Option.getD_some]
          exact hd0 q m0 hl
      · rw [alookup_aset_ne _ _ _ _ hqp] at hq
        exact hd0 q om2 hq

theorem stencilData_inner_dkeys (d : Table) (hd : StencilData d) :
    ∀ pt om, alookup d pt = some om → DKeys om := by
  induction hd with
  | empty =>
    intro pt om h2
    simp [alookup] at h2
  | build gen shape axis order h acc d0 tbl hd0 hc ih =>
    rw [createStencil] at hc
    exact createStencilGo_inner_dkeys gen shape.length axis order h acc
      (charPts shape.length) d0 tbl ih hc

/-- C6: subtracting a constructed stencil from itself — whether built fresh
(`d0 = {}`) or seeded through any chain of `old_stl` accumulations — yields
a table whose weight is exactly zero at every pattern and every offset
present in the original. -/
theorem sub_self_zero_spec (gen : CoefGen) (shape : List Nat) (axis order acc : Nat)
    (h : Rat) (d0 tbl : Table)
    (hd0 : StencilData d0)
    (hc : createStencil gen shape axis order h acc d0 = some tbl) :
    ∃ r, stencilSub shape tbl shape tbl = some r ∧
      ∀ pt m, alookup tbl pt = some m → ∀ lo : Offset, (alookup m lo).isSome →
        ∃ mr, alookup r pt = some mr ∧ alookup mr lo = some 0 := by
  have hnd : ∀ pt om, alookup tbl pt = some om → DKeys om :=
    stencilData_inner_dkeys tbl (StencilData.build gen shape axis order h acc d0 tbl hd0 hc)
  have hcov : ∀ e ∈ tbl, (alookup tbl e.1).isSome :=
    fun e he => alookup_isSome_of_mem tbl e he
  obtain ⟨r, hr, hkeys, hchar⟩ := binaryop_char shape tbl tbl (fun a b => a - b)
    (fun a => sub_zero a) hcov hnd
  refine ⟨r, hr, ?_⟩
  intro pt m hm lo hlo
  obtain ⟨mr, hmr, hval⟩ := hchar pt m m hm hm
  refine ⟨mr, hmr, ?_⟩
  rw [hval lo, if_pos (Or.inl hlo)]
  cases hx : alookup m lo with
  | none => rw [hx] at hlo; simp at hlo
  | some x => simp

/-- Witness for C6 on a seeded construction: the 3-point order-1 accuracy-2
stencil re-seeded with itself (`tbl3x2`, the doubled table). -/
theorem sub_self_zero_spec_witness :
    ∃ r, stencilSub [3] tbl3x2 [3] tbl3x2 = some r ∧
      ∀ pt m, alookup tbl3x2 pt = some m → ∀ lo : Offset, (alookup m lo).isSome →
        ∃ mr, alookup r pt = some mr ∧ alookup mr lo = some 0 :=
  sub_self_zero_spec coefficientsSpec [3] 0 1 2 1 tbl3 tbl3x2
    (StencilData.build coefficientsSpec [3] 0 1 1 2 [] tbl3 StencilData.empty
      (by with_unfolding_all rfl))
    (by with_unfolding_all rfl)

/-- C7: `apply_all` on an array whose shape differs from the grid shape, and
`_binaryop` on two stencils of different shapes, both fail immediately
(AssertionError), producing no output array and no new stencil; being pure
functions of their inputs, they mutate nothing. -/
theorem mismatch_fail_spec (shape : List Nat) (data : Table) (u : Arr)
    (oShape : List Nat) (oData : Table) (op : Rat → Rat → Rat)
    (hu : u.shape ≠ shape) (ho : shape ≠ oShape) :
    applyAll shape data u = none ∧ binaryop shape data oShape oData op = none := by
  constructor
  · rw [applyAll, if_neg hu]
  · rw [binaryop, if_neg ho]

/-- Witness for C7: a 4-point array against a 3-point grid, and combination
of a 3-point with a 4-point stencil. -/
theorem mismatch_fail_spec_witness :
    applyAll [3] tbl3 ⟨[4], DType.floatT, [0, 0, 0, 0]⟩ = none ∧
    binaryop [3] tbl3 [4] tbl3 (fun a b => a + b) = none :=
  mismatch_fail_spec [3] tbl3 ⟨[4], DType.floatT, [0, 0, 0, 0]⟩ [4] tbl3
    (fun a b => a + b) (by decide) (by decide)

/-- C8: for `shape=(5,), axis=0, order=1, h=1, acc=2` under the spec-modelled
coefficient generator, `apply_all` on `u=[0,1,2,3,4]` returns exactly
`[1,1,1,1,1]`, including the one-sided boundary values. -/
theorem example_ramp_spec :
    (createStencil coefficientsSpec [5] 0 1 1 2 []).bind
      (fun tbl => applyAll [5] tbl ⟨[5], DType.intT, [0, 1, 2, 3, 4]⟩) =
      some ⟨[5], DType.intT, [1, 1, 1, 1, 1]⟩ := by
  with_unfolding_all rfl

/-! ### The whole-grid applicator -/

theorem lget_set_self {α : Type} (l : List α) (i : Nat) (v : α) (h : i < l.length) :
    (l.set i v).get? i = some v := by
  induction l generalizing i with
  | nil => simp at h
  | cons x rest ih =>
    cases i with
    | zero => rfl
    | succ j =>
      simp only [List.length_cons] at h
      simp only [List.set_cons_succ, List.get?_cons_succ]
      exact ih j (by omega)

theorem lget_set_ne {α : Type} (l : List α) (i j : Nat) (v : α) (h : i ≠ j) :
    (l.set i v).get? j = l.get? j := by
  induction l generalizing i j with
  | nil => simp
  | cons x rest ih =>
    cases i with
    | zero =>
      cases j with
      | zero => exact absurd rfl h
      | succ j2 => rfl
    | succ i2 =>
      cases j with
      | zero => rfl
      | succ j2 =>
        simp only [List.set_cons_succ, List.get?_cons_succ]
        exact ih i2 j2 (by omega)

theorem range_flatMap_mul (n P : Nat) :
    (List.range n).flatMap (fun i => (List.range P).map (fun j => i * P + j)) =
      List.range (n * P) := by
  induction n with
  | zero => simp
  | succ n ih =>
    rw [List.range_succ, List.flatMap_append, ih]
    have h2 : Nat.succ n * P = n * P + P := Nat.succ_mul n P
    rw [h2, List.range_add]
    simp [Nat.add_comm]

theorem allIndices_flatten (sh : List Nat) :
    (allIndices sh).map (flattenIdx sh) = List.range sh.prod := by
  induction sh with
  | nil =>
    simp only [allIndices, flattenIdx, List.map_cons, List.map_nil, List.prod_nil]
    rfl
  | cons n sh ih =>
    rw [allIndices, List.map_flatMap]
    have hinner : ∀ i : Nat,
        ((allIndices sh).map (fun ix => i :: ix)).map (flattenIdx (n :: sh)) =
          (List.range sh.prod).map (fun j => i * sh.prod + j) := by
      intro i
      rw [List.map_map]
      have : (flattenIdx (n :: sh) ∘ fun ix => i :: ix) =
          (fun j => i * sh.prod + j) ∘ flattenIdx sh := by
        funext ix
        simp [Function.comp, flattenIdx]
      rw [this, ← List.map_map, ih]
    calc (List.range n).flatMap
          (fun i => ((allIndices sh).map (fun ix => i :: ix)).map (flattenIdx (n :: sh)))
        = (List.range n).flatMap
            (fun i => (List.range sh.prod).map (fun j => i * sh.prod + j)) := by
          apply List.flatMap_congr
          intro i hi
          exact hinner i
      _ = List.range (n * sh.prod) := range_flatMap_mul n sh.prod
      _ = List.range ((n :: sh).prod) := by rw [List.prod_cons]

theorem applyAllGo_meta (shape : List Nat) (data : Table) (u : Arr)
    (l : List (List Nat)) :
    ∀ (a r : Arr), applyAllGo shape data u l a = some r →
      r.dtype = a.dtype ∧ r.shape = a.shape ∧ r.data.length = a.data.length := by
  induction l with
  | nil =>
    intro a r hr
    rw [applyAllGo] at hr
    injection hr with h2
    subst h2
    exact ⟨rfl, rfl, rfl⟩
  | cons idx rest ih =>
    intro a r hr
    rw [applyAllGo] at hr
    cases hv : applyPt shape data u idx with
    | none =>
      rw [hv] at hr
      exact Option.noConfusion hr
    | some v =>
      rw [hv] at hr
      have h2 := ih (arrSet a idx v) r hr
      exact ⟨h2.1, h2.2.1, h2.2.2.trans (by simp [arrSet])⟩

theorem applyAllGo_untouched (shape : List Nat) (data : Table) (u : Arr)
    (l : List (List Nat)) :
    ∀ (a r : Arr), applyAllGo shape data u l a = some r →
      ∀ p : Nat, (∀ idx ∈ l, flattenIdx a.shape idx ≠ p) →
        r.data.get? p = a.data.get? p := by
  induction l with
  | nil =>
    intro a r hr p hp
    rw [applyAllGo] at hr
    injection hr with h2
    subst h2
    rfl
  | cons idx rest ih =>
    intro a r hr p hp
    rw [applyAllGo] at hr
    cases hv : applyPt shape data u idx with
    | none =>
      rw [hv] at hr
      exact Option.noConfusion hr
    | some v =>
      rw [hv] at hr
      have h2 := ih (arrSet a idx v) r hr p (by
        intro q hq
        exact hp q (List.mem_cons_of_mem _ hq))
      rw [h2]
      have hne : flattenIdx a.shape idx ≠ p := hp idx (List.mem_cons_self _ _)
      exact lget_set_ne a.data _ p _ hne

theorem applyAllGo_written (shape : List Nat) (data : Table) (u : Arr)
    (l : List (List Nat)) :
    ∀ (a r : Arr), a.shape = u.shape →
      ((l.map (flattenIdx u.shape)).Nodup) →
      (∀ idx ∈ l, flattenIdx u.shape idx < a.data.length) →
      applyAllGo shape data u l a = some r →
      ∀ idx ∈ l, ∀ v, applyPt shape data u idx = some v →
        r.data.get? (flattenIdx u.shape idx) = some (castD a.dtype v) := by
  induction l with
  | nil =>
    intro a r hsh hnd hbnd hr idx hidx
    simp at hidx
  | cons idx0 rest ih =>
    intro a r hsh hnd hbnd hr idx hidx v hv
    rw [applyAllGo] at hr
    cases hv0 : applyPt shape data u idx0 with
    | none =>
      rw [hv0] at hr
      exact Option.noConfusion hr
    | some v0 =>
      rw [hv0] at hr
      have hshape2 : (arrSet a idx0 v0).shape = a.shape := rfl
      have hlen2 : (arrSet a idx0 v0).data.length = a.data.length := by simp [arrSet]
      rcases List.mem_cons.mp hidx with rfl | hidx2
      · have hvv : v0 = v := by
          rw [hv] at hv0
          exact (Option.some.inj hv0).symm
        have hnotin : flattenIdx u.shape idx ∉ rest.map (flattenIdx u.shape) := by
          simp only [List.map_cons, List.nodup_cons] at hnd
          exact hnd.1
        have huntouched := applyAllGo_untouched shape data u rest (arrSet a idx v0) r hr
          (flattenIdx u.shape idx)
          (by
            intro q hq
            rw [hshape2, hsh]
            intro hc
            exact hnotin (hc ▸ List.mem_map_of_mem (flattenIdx u.shape) hq))
        rw [huntouched, ← hvv]
        have hb : flattenIdx u.shape idx < a.data.length := hbnd idx (List.mem_cons_self _ _)
        have hfe : flattenIdx a.shape idx = flattenIdx u.shape idx := by rw [hsh]
        show (a.data.set (flattenIdx a.shape idx) (castD a.dtype v0)).get?
            (flattenIdx u.shape idx) = some (castD a.dtype v0)
        rw [hfe]
        exact lget_set_self a.data _ _ hb
      · have hnd2 : (rest.map (flattenIdx u.shape)).Nodup := by
          simp only [List.map_cons, List.nodup_cons] at hnd
          exact hnd.2
        have hbnd2 : ∀ q ∈ rest, flattenIdx u.shape q < (arrSet a idx0 v0).data.length := by
          intro q hq
          rw [hlen2]
          exact hbnd q (List.mem_cons_of_mem _ hq)
        exact ih (arrSet a idx0 v0) r (hshape2.trans hsh) hnd2 hbnd2 hr idx hidx2 v hv

/-- C9: `apply_all` on a well-formed array of matching shape produces an
output (built fresh from `zeros_like`, the input array is never written)
whose dtype and shape equal the input's, and stores each per-point
derivative converted to that dtype — for an integer input array the value
is truncated toward zero rather than kept exact. -/
theorem apply_all_dtype_spec (shape : List Nat) (data : Table) (u du : Arr)
    (hwf : u.data.length = u.shape.prod)
    (hsh : u.shape = shape)
    (happ : applyAll shape data u = some du) :
    du.dtype = u.dtype ∧ du.shape = u.shape ∧ du.data.length = u.data.length ∧
    (∀ idx ∈ allIndices u.shape, ∀ v, applyPt shape data u idx = some v →
      du.data.get? (flattenIdx u.shape idx) = some (castD u.dtype v)) ∧
    (∀ q : Rat, castD DType.intT q = ((ratTrunc q : Int) : Rat)) := by
  rw [applyAll, if_pos hsh] at happ
  have hmeta := applyAllGo_meta shape data u (allIndices u.shape) (zerosLike u) du happ
  have hz3 : (zerosLike u).data.length = u.data.length := by simp [zerosLike]
  have hnd : ((allIndices u.shape).map (flattenIdx u.shape)).Nodup := by
    rw [allIndices_flatten]
    exact List.nodup_range _
  have hbnd : ∀ idx ∈ allIndices u.shape,
      flattenIdx u.shape idx < (zerosLike u).data.length := by
    intro idx hidx
    rw [hz3, hwf]
    have h2 : flattenIdx u.shape idx ∈ (allIndices u.shape).map (flattenIdx u.shape) :=
      List.mem_map_of_mem _ hidx
    rw [allIndices_flatten] at h2
    exact List.mem_range.mp h2
  refine ⟨hmeta.1, hmeta.2.1, hmeta.2.2.trans hz3, ?_, fun q => rfl⟩
  intro idx hidx v hv
  exact applyAllGo_written shape data u (allIndices u.shape) (zerosLike u) du rfl hnd hbnd
    happ idx hidx v hv

/-- Witness for C9: an integer array `u=[0,1,3]` on a 3-point grid with the
concrete order-1 accuracy-2 table; the exact derivative values
`(1/2, 3/2, 5/2)` are stored truncated as `[0, 1, 2]`. -/
theorem apply_all_dtype_spec_witness :
    (⟨[3], DType.intT, [0, 1, 2]⟩ : Arr).dtype = (⟨[3], DType.intT, [0, 1, 3]⟩ : Arr).dtype ∧
    (⟨[3], DType.intT, [0, 1, 2]⟩ : Arr).shape = (⟨[3], DType.intT, [0, 1, 3]⟩ : Arr).shape ∧
    (⟨[3], DType.intT, [0, 1, 2]⟩ : Arr).data.length =
      (⟨[3], DType.intT, [0, 1, 3]⟩ : Arr).data.length ∧
    (∀ idx ∈ allIndices (⟨[3], DType.intT, [0, 1, 3]⟩ : Arr).shape, ∀ v,
      applyPt [3] tbl3 ⟨[3], DType.intT, [0, 1, 3]⟩ idx = some v →
      (⟨[3], DType.intT, [0, 1, 2]⟩ : Arr).data.get?
        (flattenIdx (⟨[3], DType.intT, [0, 1, 3]⟩ : Arr).shape idx) =
        some (castD (⟨[3], DType.intT, [0, 1, 3]⟩ : Arr).dtype v)) ∧
    (∀ q : Rat, castD DType.intT q = ((ratTrunc q : Int) : Rat)) :=
  apply_all_dtype_spec [3] tbl3 ⟨[3], DType.intT, [0, 1, 3]⟩ ⟨[3], DType.intT, [0, 1, 2]⟩
    (by decide) (by decide) (by with_unfolding_all rfl)

/-! ### Seeded construction and aliasing -/

theorem lget_lt_of_some {α : Type} (l : List α) (i : Nat) (x : α)
    (h : l.get? i = some x) : i < l.length := by
  induction l generalizing i with
  | nil => simp [List.get?] at h
  | cons y rest ih =>
    cases i with
    | zero => simp
    | succ j =>
      simp only [List.get?_cons_succ] at h
      have := ih j h
      simp only [List.length_cons]
      omega

/-- C1 counterexample: constructing with `shape=(3,), axis=0, order=1, h=1,
acc=2` and then constructing again with the first stencil as `old_stl`
returns the seed's own dict address and leaves the seed's table with every
weight doubled — the seed's `data` is not byte-for-byte equal to its state
before the call. -/
theorem seed_table_not_copied_cex :
    stencilInitRef coefficientsSpec [3] 0 1 1 2 none [] = some (0, [tbl3]) ∧
    stencilInitRef coefficientsSpec [3] 0 1 1 2 (some 0) [tbl3] = some (0, [tbl3x2]) ∧
    ([tbl3x2] : Heap).get? 0 ≠ ([tbl3] : Heap).get? 0 :=
  ⟨by with_unfolding_all rfl, by with_unfolding_all rfl, by with_unfolding_all decide⟩

/-- C1 (amended): a construction given a seed stencil `old_stl` does not
copy the seed's weight table — `self.data = old_stl.data` aliases it. The
new instance's `data` is the very dict object of the seed, and construction
accumulates into it in place, so after the call the seed's table equals the
new instance's table (the accumulation result), not its prior state. -/
theorem seed_table_aliased (gen : CoefGen) (shape : List Nat) (axis order acc : Nat)
    (h : Rat) (a a2 : Nat) (hp hp2 : Heap)
    (hinit : stencilInitRef gen shape axis order h acc (some a) hp = some (a2, hp2)) :
    a2 = a ∧ ∃ d d2, hp.get? a = some d ∧
      createStencil gen shape axis order h acc d = some d2 ∧
      hp2 = hp.set a d2 ∧ hp2.get? a2 = some d2 := by
  simp only [stencilInitRef] at hinit
  cases hd : hp.get? a with
  | none =>
    simp only [createStencilRef, hd] at hinit
    simp at hinit
  | some d =>
    simp only [createStencilRef, hd] at hinit
    cases hc : createStencil gen shape axis order h acc d with
    | none =>
      simp only [hc] at hinit
      simp at hinit
    | some d2 =>
      simp only [hc, Option.map_some'] at hinit
      have h2 : (a, hp.set a d2) = (a2, hp2) := Option.some.inj hinit
      rw [Prod.mk.injEq] at h2
      obtain ⟨ha2, hhp2⟩ := h2
      subst ha2
      refine ⟨rfl, d, d2, rfl, hc, hhp2.symm, ?_⟩
      rw [← hhp2]
      exact lget_set_self hp a d2 (lget_lt_of_some hp a d hd)

/-- Witness for the amended C1 at the concrete counterexample inputs. -/
theorem seed_table_aliased_witness :
    (0 : Nat) = 0 ∧ ∃ d d2, ([tbl3] : Heap).get? 0 = some d ∧
      createStencil coefficientsSpec [3] 0 1 1 2 d = some d2 ∧
      ([tbl3x2] : Heap) = ([tbl3] : Heap).set 0 d2 ∧
      ([tbl3x2] : Heap).get? 0 = some d2 :=
  seed_table_aliased coefficientsSpec [3] 0 1 2 1 0 0 [tbl3] [tbl3x2]
    (by with_unfolding_all rfl)
